import Mathlib

set_option maxHeartbeats 1000000

/-!
Shallow embedding of the poker-hand classifier from `script.js`
(classes `Card`, `Hand`) together with a small reference model of the
JavaScript dynamic values that reach the two constructors and of the
array heap that the `Hand` constructor copies from.

JavaScript semantics modelled explicitly:
* `Array.prototype.indexOf` returns `-1` when the element is absent
  (`jsIndexOf`), and indexing out of bounds yields `undefined`
  (`jsGetElem` returns `none`);
* `Array.prototype.sort` / `toSorted` with the comparator
  `order.indexOf(a.value) - order.indexOf(b.value)` is a stable sort by
  that integer key, modelled with `List.mergeSort`;
* the reduce in `countCards` builds a plain object keyed by rank label;
  `Object.values` of that object enumerates integer-like keys first, but
  every consumer (`some`, `filter().length`) depends only on the multiset
  of counts, so the counter is modelled as an association list in
  first-insertion order.
-/

/-- The `Card` class: four private string fields with getters. -/
structure Card where
  code : String
  suit : String
  value : String
  image : String
deriving DecidableEq

/-- The `Hand` class: its private `#cards` field. -/
structure Hand where
  cards : List Card
deriving DecidableEq

/-- A JavaScript value passed to the `Card` constructor: either a string or
some non-string value.  Every non-string fails the constructor's
`typeof x !== "string"` check (falsy non-strings already fail the `!x`
check), so one constructor suffices for all non-strings. -/
inductive JSVal where
  | str (s : String)
  | nonstr
deriving DecidableEq

/-- Stage four of the `Card` constructor: the `image` check
(`!image || typeof image !== "string"`). -/
def makeImage (c s v : String) : JSVal → Except String Card
  | .nonstr => .error "Invalid image"
  | .str i => if i = "" then .error "Invalid image" else .ok ⟨c, s, v, i⟩

/-- Stage three of the `Card` constructor: the `value` check. -/
def makeValue (c s : String) : JSVal → JSVal → Except String Card
  | .nonstr, _ => .error "Invalid value"
  | .str v, image => if v = "" then .error "Invalid value" else makeImage c s v image

/-- Stage two of the `Card` constructor: the `suit` check. -/
def makeSuit (c : String) : JSVal → JSVal → JSVal → Except String Card
  | .nonstr, _, _ => .error "Invalid suit"
  | .str s, value, image =>
    if s = "" then .error "Invalid suit" else makeValue c s value image

/-- The `Card` constructor (`script.js` lines 17-30): each field is checked
in order (`code`, `suit`, `value`, `image`); a falsy or non-string value —
and for `code` a length other than 2 — throws a `TypeError`. -/
def Card.make : JSVal → JSVal → JSVal → JSVal → Except String Card
  | .nonstr, _, _, _ => .error "Invalid code"
  | .str c, suit, value, image =>
    if c = "" ∨ c.length ≠ 2 then .error "Invalid code" else makeSuit c suit value image

/-- An element of the array given to the `Hand` constructor: a `Card`
instance or any other value (which fails the `card instanceof Card` test). -/
inductive JSItem where
  | card (c : Card)
  | notCard
deriving DecidableEq

/-- `card instanceof Card` for one array element. -/
def isCardItem : JSItem → Bool
  | .card _ => true
  | .notCard => false

/-- Extract the `Card` from an array element, when it is one. -/
def itemCard? : JSItem → Option Card
  | .card c => some c
  | .notCard => none

/-- The `Hand` constructor (`script.js` lines 141-145): it throws iff some
element is not a `Card` (`cards.every(card => card instanceof Card)`), and
otherwise stores a copy `[...cards]` of the array.  It performs no check on
the array's length. -/
def Hand.make (cards : List JSItem) : Except String Hand :=
  if cards.all isCardItem then .ok ⟨cards.filterMap itemCard?⟩
  else .error "cards must be an array of Card."

/-- `Hand.#CARD_ORDER_ACE_HIGH`. -/
def CARD_ORDER_ACE_HIGH : List String :=
  ["2", "3", "4", "5", "6", "7", "8", "9", "10", "JACK", "QUEEN", "KING", "ACE"]

/-- `Hand.#CARD_ORDER_ACE_LOW`. -/
def CARD_ORDER_ACE_LOW : List String :=
  ["ACE", "2", "3", "4", "5", "6", "7", "8", "9", "10", "JACK", "QUEEN", "KING"]

/-- `Hand.cardOrder(ace_high)`. -/
def Hand.cardOrder (ace_high : Bool := true) : List String :=
  if ace_high then CARD_ORDER_ACE_HIGH else CARD_ORDER_ACE_LOW

/-- JavaScript `list.indexOf(x)`: the first index of `x`, or `-1` when
`x` does not occur. -/
def jsIndexOf (l : List String) (x : String) : Int :=
  if x ∈ l then (l.indexOf x : Int) else -1

/-- JavaScript `list[i]` for an integer index: `undefined` (here `none`)
when `i` is negative or at least the length. -/
def jsGetElem (l : List String) (i : Int) : Option String :=
  if 0 ≤ i then l[i.toNat]? else none

/-- The sort key of a card under rank order `ord`:
`order.indexOf(card.value)` (so `-1` for a value outside the order). -/
def sortKey (ord : List String) (c : Card) : Int := jsIndexOf ord c.value

/-- The comparator `(a, b) => order.indexOf(a.value) - order.indexOf(b.value)`
passed to the (stable) JavaScript sort, modelled as a stable insertion sort
by the integer key. -/
def sortCards (ord : List String) (cards : List Card) : List Card :=
  List.insertionSort (fun a b => sortKey ord a ≤ sortKey ord b) cards

/-- `hand.toSorted(ace_high)`: a sorted copy of the cards. -/
def Hand.toSorted (h : Hand) (ace_high : Bool := true) : List Card :=
  sortCards (Hand.cardOrder ace_high) h.cards

/-- `hand.sort(ace_high)` mutates `#cards` into sorted order; this is the
hand's state after that call. -/
def Hand.sortInPlace (h : Hand) (ace_high : Bool := true) : Hand :=
  ⟨h.toSorted ace_high⟩

/-- One step of the reduce in `countCards`: bump the count stored under key
`v`, or append a fresh entry `(v, 1)`. -/
def insertCount (counter : List (String × Nat)) (v : String) : List (String × Nat) :=
  match counter with
  | [] => [(v, 1)]
  | (k, n) :: rest => if k = v then (k, n + 1) :: rest else (k, n) :: insertCount rest v

/-- `hand.countCards()`: the rank-label → count object, as an association
list in first-insertion order. -/
def Hand.countCards (h : Hand) : List (String × Nat) :=
  h.cards.foldl (fun counter card => insertCount counter card.value) []

/-- `Object.values(hand.countCards())`: the list of counts.  (JavaScript
enumerates integer-like keys first; all consumers are order-insensitive.) -/
def Hand.countValues (h : Hand) : List Nat :=
  h.countCards.map Prod.snd

/-- `hand.isFlush()`: every card has the suit of `cards[0]`.  (On an empty
hand the JavaScript would throw reading `cards[0].suit`; all specified hands
are non-empty.) -/
def Hand.isFlush (h : Hand) : Bool :=
  match h.cards with
  | [] => true
  | c0 :: _ => h.cards.all (fun card => card.suit == c0.suit)

/-- The body of `values.every((value, index) => value === order[index + offset])`,
walking the value list with its running index. -/
def runMatches (ord : List String) (offset : Int) : Nat → List String → Bool
  | _, [] => true
  | i, v :: rest =>
    (jsGetElem ord ((i : Int) + offset) == some v) && runMatches ord offset (i + 1) rest

/-- `order.indexOf(values[0])`: on an empty list `values[0]` is `undefined`
and `indexOf` returns `-1`. -/
def headIndex (ord : List String) (values : List String) : Int :=
  match values with
  | [] => -1
  | v :: _ => jsIndexOf ord v

/-- One iteration of the loop in `isStraight` for a fixed rank order `ord`:
sort the cards by `ord`, take the first card's position as `offset`, and
require `values[index] === order[index + offset]` for every index. -/
def straightCheck (ord : List String) (cards : List Card) : Bool :=
  let values := (sortCards ord cards).map Card.value
  runMatches ord (headIndex ord values) 0 values

/-- `hand.isStraight()`: the loop tries `i = 0` (`Boolean(0)` = ace-low) and
then `i = 1` (ace-high), returning true as soon as one check passes. -/
def Hand.isStraight (h : Hand) : Bool :=
  straightCheck (Hand.cardOrder false) h.cards || straightCheck (Hand.cardOrder true) h.cards

/-- `hand.isRoyalFlush()`: a flush whose values include every element of
`Hand.cardOrder(true).slice(-5)` (the top five ace-high ranks). -/
def Hand.isRoyalFlush (h : Hand) : Bool :=
  if !h.isFlush then false
  else
    let royalFlush := (Hand.cardOrder true).drop ((Hand.cardOrder true).length - 5)
    let values := h.cards.map Card.value
    royalFlush.all (fun value => values.contains value)

/-- `hand.isStraightFlush()`. -/
def Hand.isStraightFlush (h : Hand) : Bool :=
  h.isFlush && h.isStraight

/-- `hand.isOfAKind(count)`: some rank's count equals `count`. -/
def Hand.isOfAKind (h : Hand) (count : Nat := 2) : Bool :=
  h.countValues.any (fun cardCount => cardCount == count)

/-- `hand.isFullHouse()`. -/
def Hand.isFullHouse (h : Hand) : Bool :=
  h.isOfAKind 3 && h.isOfAKind 2

/-- `hand.isTwoPair()`: exactly two counts equal 2. -/
def Hand.isTwoPair (h : Hand) : Bool :=
  ((h.countValues).filter (fun value => value == 2)).length == 2

/-- `hand.isOnePair()`. -/
def Hand.isOnePair (h : Hand) : Bool :=
  h.isOfAKind 2

/-- `hand.highestHand()`: the if/else-if chain of `script.js` lines 297-319. -/
def Hand.highestHand (h : Hand) : String :=
  if h.isRoyalFlush then "Royal Flush"
  else if h.isStraightFlush then "Straight Flush"
  else if h.isOfAKind 4 then "Four of a Kind"
  else if h.isFullHouse then "Full House"
  else if h.isFlush then "Flush"
  else if h.isStraight then "Straight"
  else if h.isOfAKind 3 then "Three of a Kind"
  else if h.isTwoPair then "Two Pair"
  else if h.isOnePair then "One Pair"
  else "High Card"

/-- The ten classification labels in the classifier's priority order. -/
def handLabels : List String :=
  ["Royal Flush", "Straight Flush", "Four of a Kind", "Full House", "Flush",
   "Straight", "Three of a Kind", "Two Pair", "One Pair", "High Card"]

/-- Spec-side: the nine predicate/label pairs in the spec's fixed descending
priority order (the tenth label, "High Card", is the default). -/
def rankedPredicates (h : Hand) : List (String × Bool) :=
  [("Royal Flush", h.isRoyalFlush), ("Straight Flush", h.isStraightFlush),
   ("Four of a Kind", h.isOfAKind 4), ("Full House", h.isFullHouse),
   ("Flush", h.isFlush), ("Straight", h.isStraight),
   ("Three of a Kind", h.isOfAKind 3), ("Two Pair", h.isTwoPair),
   ("One Pair", h.isOnePair)]

/-- Spec-side: the label of the first true predicate in the priority order,
defaulting to "High Card". -/
def firstTrueLabel (h : Hand) : String :=
  match (rankedPredicates h).find? (fun p => p.2) with
  | some p => p.1
  | none => "High Card"

/-- Spec-side: under rank order `ord`, the hand's rank labels, sorted by
that order, occupy consecutive positions of `ord`. -/
def consecutiveInOrder (ord : List String) (cards : List Card) : Prop :=
  ∃ off : Nat, off + cards.length ≤ ord.length ∧
    (sortCards ord cards).map Card.value = (ord.drop off).take cards.length

/-- Read an array reference from the heap of card arrays. -/
def readArr (heap : List (List Card)) (r : Nat) : List Card :=
  heap.getD r []

/-- Overwrite the array behind reference `r` (models any in-place mutation:
adding, removing or reordering elements). -/
def writeArr (heap : List (List Card)) (r : Nat) (v : List Card) : List (List Card) :=
  heap.set r v

/-- `new Hand(cards)` against the heap: the spread `[...cards]` allocates a
fresh array holding a copy of the caller's array; the hand keeps the fresh
reference.  Returns (hand's reference, new heap). -/
def Hand.constructRef (heap : List (List Card)) (callerRef : Nat) : Nat × List (List Card) :=
  (heap.length, heap ++ [readArr heap callerRef])

/-- `hand.highestHand()` read through the heap. -/
def highestHandAt (heap : List (List Card)) (r : Nat) : String :=
  Hand.highestHand ⟨readArr heap r⟩

/-- Spec-side: the top five entries of the ace-high rank order,
`10, JACK, QUEEN, KING, ACE`. -/
def royalValues : List String :=
  ["10", "JACK", "QUEEN", "KING", "ACE"]

/-- The JavaScript property read `counter[k]` on the count object: the
stored count, or 0 for the falsy `undefined` when the key is absent. -/
def getCount (counter : List (String × Nat)) (k : String) : Nat :=
  match counter.find? (fun p => p.1 == k) with
  | some p => p.2
  | none => 0

/-- The constructor argument is empty or not a string (the spec's
"empty/wrong-type" field). -/
def badField : JSVal → Bool
  | .str s => s == ""
  | .nonstr => true

/-- A concrete valid card. -/
def aCard : Card := ⟨"2H", "HEARTS", "2", "null"⟩

/-- The wheel hand {A,2,3,4,5} of mixed suits. -/
def wheelHand : Hand :=
  ⟨[⟨"5H", "HEARTS", "5", "null"⟩, ⟨"AS", "SPADES", "ACE", "null"⟩,
    ⟨"3H", "HEARTS", "3", "null"⟩, ⟨"2C", "CLUBS", "2", "null"⟩,
    ⟨"4H", "HEARTS", "4", "null"⟩]⟩

/-- The wraparound hand {K,A,2,3,4} of mixed suits. -/
def wrapHand : Hand :=
  ⟨[⟨"KH", "HEARTS", "KING", "null"⟩, ⟨"AS", "SPADES", "ACE", "null"⟩,
    ⟨"3H", "HEARTS", "3", "null"⟩, ⟨"2C", "CLUBS", "2", "null"⟩,
    ⟨"4H", "HEARTS", "4", "null"⟩]⟩

/-- A concrete one-pair hand (two KINGs). -/
def pairHand : Hand :=
  ⟨[⟨"7D", "DIAMONDS", "7", "null"⟩, ⟨"KH", "HEARTS", "KING", "null"⟩,
    ⟨"0S", "SPADES", "10", "null"⟩, ⟨"KD", "DIAMONDS", "KING", "null"⟩,
    ⟨"4C", "CLUBS", "4", "null"⟩]⟩

/-- A concrete full-house hand (three 7s, two 5s). -/
def fullHouseHand : Hand :=
  ⟨[⟨"7D", "DIAMONDS", "7", "null"⟩, ⟨"5C", "CLUBS", "5", "null"⟩,
    ⟨"7H", "HEARTS", "7", "null"⟩, ⟨"5H", "HEARTS", "5", "null"⟩,
    ⟨"7S", "SPADES", "7", "null"⟩]⟩

/-- A concrete royal flush in spades. -/
def royalHand : Hand :=
  ⟨[⟨"0S", "SPADES", "10", "null"⟩, ⟨"KS", "SPADES", "KING", "null"⟩,
    ⟨"QS", "SPADES", "QUEEN", "null"⟩, ⟨"JS", "SPADES", "JACK", "null"⟩,
    ⟨"AS", "SPADES", "ACE", "null"⟩]⟩

/-- The royal flush cards of `royalHand` in a different display order. -/
def royalHandShuffled : Hand :=
  ⟨[⟨"AS", "SPADES", "ACE", "null"⟩, ⟨"QS", "SPADES", "QUEEN", "null"⟩,
    ⟨"0S", "SPADES", "10", "null"⟩, ⟨"JS", "SPADES", "JACK", "null"⟩,
    ⟨"KS", "SPADES", "KING", "null"⟩]⟩

/-! ### Facts about the two rank orders -/

theorem nodup_cardOrder (b : Bool) : (Hand.cardOrder b).Nodup := by
  cases b <;> decide

theorem length_cardOrder (b : Bool) : (Hand.cardOrder b).length = 13 := by
  cases b <;> rfl

/-! ### Facts about `jsIndexOf` and `jsGetElem` -/

theorem jsIndexOf_of_mem {l : List String} {x : String} (h : x ∈ l) :
    jsIndexOf l x = (l.indexOf x : Int) := by
  simp [jsIndexOf, h]

theorem jsIndexOf_of_not_mem {l : List String} {x : String} (h : x ∉ l) :
    jsIndexOf l x = -1 := by
  simp [jsIndexOf, h]

theorem jsIndexOf_nonneg {l : List String} {x : String} (h : x ∈ l) :
    0 ≤ jsIndexOf l x := by
  rw [jsIndexOf_of_mem h]
  exact Int.natCast_nonneg _

theorem jsIndexOf_toNat_lt {l : List String} {x : String} (h : x ∈ l) :
    (jsIndexOf l x).toNat < l.length := by
  rw [jsIndexOf_of_mem h]
  simpa using List.indexOf_lt_length.mpr h

theorem jsIndexOf_inj {l : List String} {x y : String} (hx : x ∈ l) (hy : y ∈ l)
    (h : jsIndexOf l x = jsIndexOf l y) : x = y := by
  rw [jsIndexOf_of_mem hx, jsIndexOf_of_mem hy] at h
  exact (List.indexOf_inj hx hy).mp (by exact_mod_cast h)

theorem jsIndexOf_getElem {l : List String} (hnd : l.Nodup) {i : Nat} (hi : i < l.length) :
    jsIndexOf l l[i] = (i : Int) := by
  have hmem : l[i] ∈ l := List.getElem_mem hi
  rw [jsIndexOf_of_mem hmem]
  have h1 : List.indexOf l[i] l < l.length := List.indexOf_lt_length.mpr hmem
  have h2 := List.getElem_indexOf h1
  exact congrArg _ (hnd.getElem_inj_iff.mp h2)

theorem jsGetElem_eq_some {l : List String} {i : Int} {v : String} :
    jsGetElem l i = some v ↔ 0 ≤ i ∧ ∃ h : i.toNat < l.length, l[i.toNat] = v := by
  unfold jsGetElem
  split
  next hpos => simp [List.getElem?_eq_some_iff, hpos]
  next hneg => simp [hneg]

theorem jsGetElem_ofNat {l : List String} {n : Nat} (h : n < l.length) :
    jsGetElem l (n : Int) = some l[n] := by
  rw [jsGetElem_eq_some]
  exact ⟨Int.natCast_nonneg _, by simpa using h, by simp⟩

/-! ### Facts about `sortCards` -/

theorem sortCards_perm (ord : List String) (cards : List Card) :
    List.Perm (sortCards ord cards) cards :=
  List.perm_insertionSort _ cards

theorem sortCards_length (ord : List String) (cards : List Card) :
    (sortCards ord cards).length = cards.length :=
  (sortCards_perm ord cards).length_eq

theorem sortCards_pairwise (ord : List String) (cards : List Card) :
    (sortCards ord cards).Pairwise (fun a b => sortKey ord a ≤ sortKey ord b) := by
  haveI : IsTotal Card (fun a b => sortKey ord a ≤ sortKey ord b) :=
    ⟨fun a b => Int.le_total _ _⟩
  haveI : IsTrans Card (fun a b => sortKey ord a ≤ sortKey ord b) :=
    ⟨fun a b c hab hbc => Int.le_trans hab hbc⟩
  exact List.sorted_insertionSort _ cards

theorem sortedValues_pairwise (ord : List String) (cards : List Card) :
    ((sortCards ord cards).map Card.value).Pairwise
      (fun v w => jsIndexOf ord v ≤ jsIndexOf ord w) := by
  rw [List.pairwise_map]
  exact sortCards_pairwise ord cards

theorem sortedValues_perm (ord : List String) {c₁ c₂ : List Card} (hp : List.Perm c₁ c₂) :
    List.Perm ((sortCards ord c₁).map Card.value) ((sortCards ord c₂).map Card.value) :=
  ((sortCards_perm ord c₁).trans (hp.trans (sortCards_perm ord c₂).symm)).map _

/-- Two sorted lists of labels drawn from a duplicate-free order that are
permutations of each other are equal: the sort order is rigid on labels the
order knows. -/
theorem sorted_values_unique {ord : List String} {s t : List String}
    (hperm : List.Perm s t)
    (hs : s.Pairwise (fun v w => jsIndexOf ord v ≤ jsIndexOf ord w))
    (ht : t.Pairwise (fun v w => jsIndexOf ord v ≤ jsIndexOf ord w))
    (hmem : ∀ v ∈ s, v ∈ ord) : s = t := by
  have hkeys : List.Perm (s.map (jsIndexOf ord)) (t.map (jsIndexOf ord)) := hperm.map _
  have hks : List.Sorted (· ≤ ·) (s.map (jsIndexOf ord)) := List.pairwise_map.mpr hs
  have hkt : List.Sorted (· ≤ ·) (t.map (jsIndexOf ord)) := List.pairwise_map.mpr ht
  have hkeq : s.map (jsIndexOf ord) = t.map (jsIndexOf ord) :=
    List.eq_of_perm_of_sorted hkeys hks hkt
  have hmem_t : ∀ v ∈ t, v ∈ ord := fun v hv => hmem v (hperm.mem_iff.mpr hv)
  apply List.ext_getElem hperm.length_eq
  intro i h1 h2
  have hklen₁ : i < (s.map (jsIndexOf ord)).length := by simpa using h1
  have hklen₂ : i < (t.map (jsIndexOf ord)).length := by simpa using h2
  have hkey_i : jsIndexOf ord s[i] = jsIndexOf ord t[i] := by
    have h3 := congrArg (fun l => l[i]?) hkeq
    simp only [List.getElem?_map] at h3
    rw [List.getElem?_eq_getElem h1, List.getElem?_eq_getElem h2] at h3
    simpa using h3
  exact jsIndexOf_inj (hmem _ (List.getElem_mem h1)) (hmem_t _ (List.getElem_mem h2)) hkey_i

/-! ### Characterization of the straight check -/

theorem jsGetElem_eq_some_q {l : List String} {i : Int} {v : String} :
    jsGetElem l i = some v ↔ 0 ≤ i ∧ l[i.toNat]? = some v := by
  unfold jsGetElem
  split
  next hpos => simp [hpos]
  next hneg => simp [hneg]

theorem runMatches_iff (ord : List String) (off : Int) :
    ∀ (i : Nat) (vs : List String),
      (runMatches ord off i vs = true ↔
        ∀ j (hj : j < vs.length), jsGetElem ord (((i + j : Nat) : Int) + off) = some vs[j])
  | i, [] => by simp [runMatches]
  | i, v :: rest => by
    simp only [runMatches, Bool.and_eq_true, beq_iff_eq]
    constructor
    · rintro ⟨h0, hrest⟩ j hj
      cases j with
      | zero => simpa using h0
      | succ j' =>
        have h := (runMatches_iff ord off (i + 1) rest).mp hrest j'
          (by simpa using Nat.lt_of_succ_lt_succ hj)
        have harith : ((i + 1 + j' : Nat) : Int) = ((i + (j' + 1) : Nat) : Int) := by omega
        rw [harith] at h
        simpa using h
    · intro hall
      refine ⟨by simpa using hall 0 (by simp), ?_⟩
      rw [runMatches_iff]
      intro j hj
      have h := hall (j + 1) (by simpa using Nat.succ_lt_succ hj)
      have harith : ((i + (j + 1) : Nat) : Int) = ((i + 1 + j : Nat) : Int) := by omega
      rw [harith] at h
      simpa using h

/-- The whole `every` call of `isStraight` on an already-sorted value list
passes iff the list is a length-preserving contiguous segment of `ord`. -/
theorem runAll_iff_segment {ord : List String} (hnd : ord.Nodup) (s : List String) :
    runMatches ord (headIndex ord s) 0 s = true ↔
      ∃ off : Nat, off + s.length ≤ ord.length ∧ s = (ord.drop off).take s.length := by
  cases s with
  | nil =>
    refine ⟨fun _ => ⟨0, by simp, by simp⟩, fun _ => rfl⟩
  | cons v₀ rest =>
    rw [runMatches_iff]
    have hhead : headIndex ord (v₀ :: rest) = jsIndexOf ord v₀ := rfl
    constructor
    · intro hall
      by_cases hv₀ : v₀ ∈ ord
      · have hoffeq : jsIndexOf ord v₀ = ((ord.indexOf v₀ : Nat) : Int) :=
          jsIndexOf_of_mem hv₀
        have hget : ∀ j (hj : j < (v₀ :: rest).length),
            ord[ord.indexOf v₀ + j]? = some ((v₀ :: rest).get ⟨j, hj⟩) := by
          intro j hj
          have h := hall j hj
          rw [hhead, hoffeq, jsGetElem_eq_some_q] at h
          obtain ⟨hpos, h⟩ := h
          have htn : ((((0 + j : Nat) : Int)) + ((ord.indexOf v₀ : Nat) : Int)).toNat
              = ord.indexOf v₀ + j := by omega
          rw [htn] at h
          exact h
        have hlast := hget rest.length (by simp)
        obtain ⟨hlastlt, -⟩ := List.getElem?_eq_some_iff.mp hlast
        refine ⟨ord.indexOf v₀, by simp only [List.length_cons]; omega, ?_⟩
        apply List.ext_getElem
        · simp only [List.length_take, List.length_drop, List.length_cons]
          omega
        · intro j h1 h2
          obtain ⟨hjlt, hval⟩ := List.getElem?_eq_some_iff.mp (hget j h1)
          rw [List.getElem_take, List.getElem_drop]
          exact hval.symm
      · exfalso
        have h := hall 0 (by simp)
        rw [hhead, jsIndexOf_of_not_mem hv₀, jsGetElem_eq_some_q] at h
        have := h.1
        omega
    · rintro ⟨off, hle, heq⟩
      simp only [List.length_cons] at hle
      have hofflt : off < ord.length := by omega
      have hv₀ : v₀ = ord[off] := by
        have h := congrArg (fun l => l[0]?) heq
        simp only [List.getElem?_cons_zero, List.getElem?_take, List.length_cons,
          Nat.zero_lt_succ, if_true, List.getElem?_drop, Nat.add_zero] at h
        rw [List.getElem?_eq_getElem hofflt] at h
        simpa using h
      have hheadoff : headIndex ord (v₀ :: rest) = (off : Int) := by
        rw [hhead, hv₀]
        exact jsIndexOf_getElem hnd hofflt
      rw [hheadoff]
      intro j hj
      simp only [List.length_cons] at hj
      have hoj : off + j < ord.length := by omega
      have htn : ((0 + j : Nat) : Int) + (off : Int) = ((off + j : Nat) : Int) := by omega
      rw [htn, jsGetElem_ofNat hoj]
      congr 1
      have h := congrArg (fun l => l[j]?) heq
      simp only [List.getElem?_take, List.getElem?_drop] at h
      rw [if_pos (by simp only [List.length_cons]; omega)] at h
      rw [List.getElem?_eq_getElem (by simp only [List.length_cons]; omega),
        List.getElem?_eq_getElem hoj] at h
      simpa using h.symm

theorem straightCheck_iff {ord : List String} (hnd : ord.Nodup) (cards : List Card) :
    straightCheck ord cards = true ↔ consecutiveInOrder ord cards := by
  have h := runAll_iff_segment hnd ((sortCards ord cards).map Card.value)
  have hslen : ((sortCards ord cards).map Card.value).length = cards.length := by
    simp [sortCards_length]
  rw [hslen] at h
  exact h

theorem mem_ord_of_straightCheck {ord : List String} (hnd : ord.Nodup) {cards : List Card}
    (h : straightCheck ord cards = true) :
    ∀ v ∈ (sortCards ord cards).map Card.value, v ∈ ord := by
  obtain ⟨off, hle, heq⟩ := (straightCheck_iff hnd cards).mp h
  intro v hv
  rw [heq] at hv
  exact (List.drop_subset off ord) ((List.take_subset _ _) hv)

/-- A helper: equal truth of two booleans gives equality. -/
theorem bool_eq_of_iff {a b : Bool} (h : (a = true) ↔ (b = true)) : a = b := by
  cases a <;> cases b <;> simp_all

theorem straightCheck_eq_false_of_dup {ord : List String} (hnd : ord.Nodup) {cards : List Card}
    (hdup : ¬ (cards.map Card.value).Nodup) : straightCheck ord cards = false := by
  cases hsc : straightCheck ord cards
  · rfl
  · exfalso
    obtain ⟨off, hle, heq⟩ := (straightCheck_iff hnd cards).mp hsc
    have hnodup_seg : ((ord.drop off).take cards.length).Nodup :=
      ((List.take_sublist _ _).trans (List.drop_sublist _ _)).nodup hnd
    rw [← heq] at hnodup_seg
    have hperm : List.Perm ((sortCards ord cards).map Card.value) (cards.map Card.value) :=
      (sortCards_perm ord cards).map _
    exact hdup (hperm.nodup_iff.mp hnodup_seg)

theorem straightCheck_perm {ord : List String} (hnd : ord.Nodup) {c₁ c₂ : List Card}
    (hp : List.Perm c₁ c₂) : straightCheck ord c₁ = straightCheck ord c₂ := by
  suffices hdir : ∀ a b : List Card, List.Perm a b →
      straightCheck ord a = true → straightCheck ord b = true by
    apply bool_eq_of_iff
    exact ⟨hdir c₁ c₂ hp, hdir c₂ c₁ hp.symm⟩
  intro a b hab htrue
  obtain ⟨off, hle, heq⟩ := (straightCheck_iff hnd a).mp htrue
  have hmem : ∀ v ∈ (sortCards ord a).map Card.value, v ∈ ord :=
    mem_ord_of_straightCheck hnd htrue
  have hperm_s : List.Perm ((sortCards ord b).map Card.value)
      ((sortCards ord a).map Card.value) :=
    sortedValues_perm ord hab.symm
  have hmem_b : ∀ v ∈ (sortCards ord b).map Card.value, v ∈ ord :=
    fun v hv => hmem v (hperm_s.mem_iff.mp hv)
  have heq_b : (sortCards ord b).map Card.value = (sortCards ord a).map Card.value :=
    sorted_values_unique hperm_s (sortedValues_pairwise ord b)
      (sortedValues_pairwise ord a) hmem_b
  rw [straightCheck_iff hnd b]
  refine ⟨off, ?_, ?_⟩
  · rw [← hab.length_eq]
    exact hle
  · rw [heq_b, heq, ← hab.length_eq]

theorem isStraight_perm {h₁ h₂ : Hand} (hp : List.Perm h₁.cards h₂.cards) :
    h₁.isStraight = h₂.isStraight := by
  unfold Hand.isStraight
  rw [straightCheck_perm (nodup_cardOrder false) hp,
    straightCheck_perm (nodup_cardOrder true) hp]

/-! ### Facts about `isFlush` -/

theorem isFlush_iff (h : Hand) :
    h.isFlush = true ↔ ∀ a ∈ h.cards, ∀ b ∈ h.cards, a.suit = b.suit := by
  unfold Hand.isFlush
  cases hc : h.cards with
  | nil => simp
  | cons c0 rest =>
    simp only [List.all_eq_true, beq_iff_eq]
    constructor
    · intro hall a ha b hb
      rw [hall a ha, hall b hb]
    · intro hab a ha
      exact hab a ha c0 (by simp)

theorem isFlush_perm {h₁ h₂ : Hand} (hp : List.Perm h₁.cards h₂.cards) :
    h₁.isFlush = h₂.isFlush := by
  apply bool_eq_of_iff
  rw [isFlush_iff, isFlush_iff]
  constructor
  · intro hf a ha b hb
    exact hf a (hp.mem_iff.mpr ha) b (hp.mem_iff.mpr hb)
  · intro hf a ha b hb
    exact hf a (hp.mem_iff.mp ha) b (hp.mem_iff.mp hb)

/-! ### Facts about the count object -/

theorem getCount_cons (k₀ : String) (n : Nat) (rest : List (String × Nat)) (k : String) :
    getCount ((k₀, n) :: rest) k = if k₀ = k then n else getCount rest k := by
  by_cases h : k₀ = k <;> simp [getCount, List.find?_cons, h]

theorem getCount_insertCount (ctr : List (String × Nat)) (v k : String) :
    getCount (insertCount ctr v) k = getCount ctr k + (if k = v then 1 else 0) := by
  induction ctr with
  | nil =>
    by_cases hkv : k = v
    · subst hkv
      simp [insertCount, getCount_cons, getCount]
    · have hvk : ¬ v = k := fun hh => hkv hh.symm
      simp [insertCount, getCount_cons, getCount, hvk, hkv]
  | cons p rest ih =>
    obtain ⟨k₀, n⟩ := p
    by_cases hk₀v : k₀ = v
    · subst hk₀v
      simp only [insertCount, if_pos rfl, getCount_cons]
      by_cases hk : k₀ = k
      · subst hk
        simp [getCount_cons]
      · have hkk₀ : ¬ k = k₀ := fun hh => hk hh.symm
        simp [getCount_cons, hk, hkk₀]
    · simp only [insertCount, if_neg hk₀v, getCount_cons]
      by_cases hk : k₀ = k
      · subst hk
        have hkv : ¬ k₀ = v := hk₀v
        simp [hkv]
      · simp [hk, ih]

theorem fst_insertCount (ctr : List (String × Nat)) (v : String) :
    (insertCount ctr v).map Prod.fst =
      if v ∈ ctr.map Prod.fst then ctr.map Prod.fst else ctr.map Prod.fst ++ [v] := by
  induction ctr with
  | nil => simp [insertCount]
  | cons p rest ih =>
    obtain ⟨k₀, n⟩ := p
    by_cases hk₀v : k₀ = v
    · subst hk₀v
      simp [insertCount]
    · have hvk₀ : ¬ v = k₀ := fun hh => hk₀v hh.symm
      simp only [insertCount, if_neg hk₀v, List.map_cons, ih]
      by_cases hv : v ∈ rest.map Prod.fst
      · simp [hv, hvk₀, List.mem_cons]
      · simp [hv, hvk₀, List.mem_cons]

theorem nodup_fst_insertCount {ctr : List (String × Nat)} (v : String)
    (hnd : (ctr.map Prod.fst).Nodup) : ((insertCount ctr v).map Prod.fst).Nodup := by
  rw [fst_insertCount]
  by_cases hv : v ∈ ctr.map Prod.fst
  · simpa [hv] using hnd
  · simp [hv, List.nodup_append, hnd]

theorem sum_snd_insertCount (ctr : List (String × Nat)) (v : String) :
    ((insertCount ctr v).map Prod.snd).sum = (ctr.map Prod.snd).sum + 1 := by
  induction ctr with
  | nil => simp [insertCount]
  | cons p rest ih =>
    obtain ⟨k₀, n⟩ := p
    by_cases hk₀v : k₀ = v
    · simp [insertCount, hk₀v]
      omega
    · simp [insertCount, hk₀v, ih]
      omega

theorem pos_snd_insertCount {ctr : List (String × Nat)} {v : String}
    (hpos : ∀ p ∈ ctr, 1 ≤ p.2) : ∀ p ∈ insertCount ctr v, 1 ≤ p.2 := by
  induction ctr with
  | nil =>
    intro p hp
    simp only [insertCount, List.mem_singleton] at hp
    simp [hp]
  | cons q rest ih =>
    obtain ⟨k₀, n⟩ := q
    intro p hp
    by_cases hk₀v : k₀ = v
    · simp only [insertCount, if_pos hk₀v, List.mem_cons] at hp
      rcases hp with hp | hp
      · simp [hp]
      · exact hpos p (List.mem_cons_of_mem _ hp)
    · simp only [insertCount, if_neg hk₀v, List.mem_cons] at hp
      rcases hp with hp | hp
      · subst hp
        exact hpos (k₀, n) (by simp)
      · exact ih (fun q hq => hpos q (List.mem_cons_of_mem _ hq)) p hp

theorem snd_map_eq_getCount : ∀ {ctr : List (String × Nat)},
    (ctr.map Prod.fst).Nodup → ctr.map Prod.snd = (ctr.map Prod.fst).map (getCount ctr)
  | [], _ => rfl
  | (k₀, n) :: rest, hnd => by
    simp only [List.map_cons, List.nodup_cons] at hnd ⊢
    obtain ⟨hk₀, hnd'⟩ := hnd
    congr 1
    · rw [getCount_cons, if_pos rfl]
    · rw [snd_map_eq_getCount hnd']
      apply List.map_congr_left
      intro x hx
      have hne : ¬ k₀ = x := by
        intro hh
        subst hh
        exact hk₀ hx
      rw [getCount_cons, if_neg hne]

theorem getCount_foldl : ∀ (cards : List Card) (ctr : List (String × Nat)) (k : String),
    getCount (cards.foldl (fun c card => insertCount c card.value) ctr) k
      = getCount ctr k + (cards.map Card.value).count k
  | [], ctr, k => by simp
  | c :: cs, ctr, k => by
    simp only [List.foldl_cons, List.map_cons]
    rw [getCount_foldl cs, getCount_insertCount, List.count_cons]
    by_cases h : k = c.value
    · simp [h]
      omega
    · simp [h]
      exact fun hh => h hh.symm

theorem mem_fst_foldl : ∀ (cards : List Card) (ctr : List (String × Nat)) (k : String),
    (k ∈ (cards.foldl (fun c card => insertCount c card.value) ctr).map Prod.fst
      ↔ k ∈ ctr.map Prod.fst ∨ k ∈ cards.map Card.value)
  | [], ctr, k => by simp
  | c :: cs, ctr, k => by
    simp only [List.foldl_cons, List.map_cons, List.mem_cons]
    rw [mem_fst_foldl cs, fst_insertCount]
    by_cases hv : c.value ∈ ctr.map Prod.fst
    · simp only [if_pos hv]
      constructor
      · rintro (h | h)
        · exact Or.inl h
        · exact Or.inr (Or.inr h)
      · rintro (h | h | h)
        · exact Or.inl h
        · exact Or.inl (h ▸ hv)
        · exact Or.inr h
    · simp only [if_neg hv, List.mem_append, List.mem_singleton]
      tauto
  termination_by cards => cards.length

theorem nodup_fst_foldl : ∀ (cards : List Card) (ctr : List (String × Nat)),
    (ctr.map Prod.fst).Nodup →
      ((cards.foldl (fun c card => insertCount c card.value) ctr).map Prod.fst).Nodup
  | [], ctr, hnd => hnd
  | c :: cs, ctr, hnd => by
    simp only [List.foldl_cons]
    exact nodup_fst_foldl cs _ (nodup_fst_insertCount c.value hnd)

theorem sum_snd_foldl : ∀ (cards : List Card) (ctr : List (String × Nat)),
    ((cards.foldl (fun c card => insertCount c card.value) ctr).map Prod.snd).sum
      = (ctr.map Prod.snd).sum + cards.length
  | [], ctr => by simp
  | c :: cs, ctr => by
    simp only [List.foldl_cons, List.length_cons]
    rw [sum_snd_foldl cs, sum_snd_insertCount]
    omega

theorem pos_snd_foldl : ∀ (cards : List Card) (ctr : List (String × Nat)),
    (∀ p ∈ ctr, 1 ≤ p.2) →
      ∀ p ∈ cards.foldl (fun c card => insertCount c card.value) ctr, 1 ≤ p.2
  | [], ctr, hpos => hpos
  | c :: cs, ctr, hpos => by
    simp only [List.foldl_cons]
    exact pos_snd_foldl cs _ (pos_snd_insertCount hpos)

theorem countCards_keys_nodup (h : Hand) : (h.countCards.map Prod.fst).Nodup :=
  nodup_fst_foldl h.cards [] (by simp)

theorem mem_countCards_keys (h : Hand) (k : String) :
    k ∈ h.countCards.map Prod.fst ↔ k ∈ h.cards.map Card.value := by
  unfold Hand.countCards
  rw [mem_fst_foldl]
  simp

theorem getCount_countCards (h : Hand) (k : String) :
    getCount h.countCards k = (h.cards.map Card.value).count k := by
  unfold Hand.countCards
  rw [getCount_foldl]
  simp [getCount]

theorem countValues_eq (h : Hand) :
    h.countValues
      = (h.countCards.map Prod.fst).map (fun k => (h.cards.map Card.value).count k) := by
  unfold Hand.countValues
  rw [snd_map_eq_getCount (countCards_keys_nodup h)]
  apply List.map_congr_left
  intro k _
  exact getCount_countCards h k

theorem sum_countValues (h : Hand) : h.countValues.sum = h.cards.length := by
  unfold Hand.countValues Hand.countCards
  rw [sum_snd_foldl]
  simp

theorem pos_countValues (h : Hand) : ∀ n ∈ h.countValues, 1 ≤ n := by
  intro n hn
  unfold Hand.countValues Hand.countCards at hn
  obtain ⟨p, hp, hpn⟩ := List.mem_map.mp hn
  have := pos_snd_foldl h.cards [] (by simp) p hp
  omega

theorem countValues_perm {h₁ h₂ : Hand} (hp : List.Perm h₁.cards h₂.cards) :
    List.Perm h₁.countValues h₂.countValues := by
  rw [countValues_eq, countValues_eq]
  have hvp : List.Perm (h₁.cards.map Card.value) (h₂.cards.map Card.value) := hp.map _
  have hkeys : List.Perm (h₁.countCards.map Prod.fst) (h₂.countCards.map Prod.fst) := by
    apply (List.perm_ext_iff_of_nodup (countCards_keys_nodup h₁)
      (countCards_keys_nodup h₂)).mpr
    intro k
    rw [mem_countCards_keys, mem_countCards_keys]
    exact ⟨fun hk => hvp.mem_iff.mp hk, fun hk => hvp.mem_iff.mpr hk⟩
  have hmaps := hkeys.map (fun k => (h₁.cards.map Card.value).count k)
  have hfun : (h₂.countCards.map Prod.fst).map (fun k => (h₁.cards.map Card.value).count k)
      = (h₂.countCards.map Prod.fst).map (fun k => (h₂.cards.map Card.value).count k) := by
    apply List.map_congr_left
    intro k _
    exact hvp.count_eq k
  rw [hfun] at hmaps
  exact hmaps

/-! ### Permutation invariance of the count-based predicates -/

theorem isOfAKind_perm {h₁ h₂ : Hand} (hp : List.Perm h₁.cards h₂.cards) (n : Nat) :
    h₁.isOfAKind n = h₂.isOfAKind n := by
  unfold Hand.isOfAKind
  apply bool_eq_of_iff
  simp only [List.any_eq_true, beq_iff_eq]
  have hcv := countValues_perm hp
  constructor
  · rintro ⟨c, hc, rfl⟩
    exact ⟨c, hcv.mem_iff.mp hc, rfl⟩
  · rintro ⟨c, hc, rfl⟩
    exact ⟨c, hcv.mem_iff.mpr hc, rfl⟩

theorem isTwoPair_perm {h₁ h₂ : Hand} (hp : List.Perm h₁.cards h₂.cards) :
    h₁.isTwoPair = h₂.isTwoPair := by
  unfold Hand.isTwoPair
  rw [← List.countP_eq_length_filter, ← List.countP_eq_length_filter,
    (countValues_perm hp).countP_eq]

theorem isOnePair_perm {h₁ h₂ : Hand} (hp : List.Perm h₁.cards h₂.cards) :
    h₁.isOnePair = h₂.isOnePair :=
  isOfAKind_perm hp 2

theorem isFullHouse_perm {h₁ h₂ : Hand} (hp : List.Perm h₁.cards h₂.cards) :
    h₁.isFullHouse = h₂.isFullHouse := by
  unfold Hand.isFullHouse
  rw [isOfAKind_perm hp 3, isOfAKind_perm hp 2]

/-! ### The royal-flush predicate -/

theorem isRoyalFlush_iff (h : Hand) :
    h.isRoyalFlush = true ↔
      (h.isFlush = true ∧ ∀ v ∈ royalValues, v ∈ h.cards.map Card.value) := by
  have hslice : (Hand.cardOrder true).drop ((Hand.cardOrder true).length - 5)
      = royalValues := rfl
  unfold Hand.isRoyalFlush
  rw [hslice]
  cases hf : h.isFlush
  · simp
  · simp only [Bool.not_true, Bool.false_eq_true, if_false, List.all_eq_true]
    constructor
    · intro hall
      refine ⟨by trivial, ?_⟩
      intro v hv
      have := hall v hv
      simpa [List.elem_iff] using this
    · rintro ⟨-, hall⟩
      intro v hv
      simpa [List.elem_iff] using hall v hv

theorem isRoyalFlush_perm {h₁ h₂ : Hand} (hp : List.Perm h₁.cards h₂.cards) :
    h₁.isRoyalFlush = h₂.isRoyalFlush := by
  apply bool_eq_of_iff
  rw [isRoyalFlush_iff, isRoyalFlush_iff, isFlush_perm hp]
  have hvp : List.Perm (h₁.cards.map Card.value) (h₂.cards.map Card.value) := hp.map _
  constructor
  · rintro ⟨hf, hall⟩
    exact ⟨hf, fun v hv => hvp.mem_iff.mp (hall v hv)⟩
  · rintro ⟨hf, hall⟩
    exact ⟨hf, fun v hv => hvp.mem_iff.mpr (hall v hv)⟩

theorem isStraightFlush_perm {h₁ h₂ : Hand} (hp : List.Perm h₁.cards h₂.cards) :
    h₁.isStraightFlush = h₂.isStraightFlush := by
  unfold Hand.isStraightFlush
  rw [isFlush_perm hp, isStraight_perm hp]

theorem highestHand_perm {h₁ h₂ : Hand} (hp : List.Perm h₁.cards h₂.cards) :
    h₁.highestHand = h₂.highestHand := by
  unfold Hand.highestHand
  rw [isRoyalFlush_perm hp, isStraightFlush_perm hp, isOfAKind_perm hp 4,
    isFullHouse_perm hp, isFlush_perm hp, isStraight_perm hp, isOfAKind_perm hp 3,
    isTwoPair_perm hp, isOnePair_perm hp]

/-! ### The full-house count multiset -/

theorem counts_perm_of_three_two {l : List Nat} (h3 : 3 ∈ l) (h2 : 2 ∈ l)
    (hsum : l.sum = 5) (hpos : ∀ x ∈ l, 1 ≤ x) : List.Perm l [3, 2] := by
  have hp3 : List.Perm l (3 :: l.erase 3) := List.perm_cons_erase h3
  have h2' : 2 ∈ l.erase 3 := (List.mem_erase_of_ne (by omega)).mpr h2
  have hp2 : List.Perm (l.erase 3) (2 :: (l.erase 3).erase 2) := List.perm_cons_erase h2'
  have hsum' : ((l.erase 3).erase 2).sum = 0 := by
    have e1 : l.sum = 3 + (l.erase 3).sum := by simpa using hp3.sum_eq
    have e2 : (l.erase 3).sum = 2 + ((l.erase 3).erase 2).sum := by simpa using hp2.sum_eq
    omega
  have hnil : (l.erase 3).erase 2 = [] := by
    cases hrest : (l.erase 3).erase 2 with
    | nil => rfl
    | cons x xs =>
      exfalso
      have hx : x ∈ l :=
        List.erase_subset _ _ (List.erase_subset _ _ (hrest ▸ List.mem_cons_self x xs))
      have hx1 := hpos x hx
      rw [hrest] at hsum'
      simp only [List.sum_cons] at hsum'
      omega
  have hp2' : List.Perm (l.erase 3) [2] := by
    rw [hnil] at hp2
    exact hp2
  exact hp3.trans (hp2'.cons 3)

/-! ### Claims -/

/-- C1: for every Hand (hence every valid 5-card hand), `highestHand` returns
the label of the first predicate that is true in the fixed priority order
Royal Flush, Straight Flush, Four of a Kind, Full House, Flush, Straight,
Three of a Kind, Two Pair, One Pair, defaulting to "High Card", and the
result is always exactly one of the 10 labels. -/
theorem C1_highestHand_first_true_label (h : Hand) :
    h.highestHand = firstTrueLabel h ∧ h.highestHand ∈ handLabels := by
  unfold Hand.highestHand firstTrueLabel rankedPredicates handLabels
  cases h.isRoyalFlush <;> cases h.isStraightFlush <;> cases h.isOfAKind 4 <;>
    cases h.isFullHouse <;> cases h.isFlush <;> cases h.isStraight <;>
    cases h.isOfAKind 3 <;> cases h.isTwoPair <;> cases h.isOnePair <;>
    exact ⟨rfl, by decide⟩

/-- C2: `isStraight` is true iff under some ace interpretation (ace-low or
ace-high) the five rank labels, sorted by that ordering, occupy consecutive
positions of the corresponding 13-label order; in particular the wheel
{A,2,3,4,5} is a straight and the wraparound {K,A,2,3,4} is not. -/
theorem C2_isStraight_iff_consecutive :
    (∀ h : Hand, (h.isStraight = true ↔
      consecutiveInOrder (Hand.cardOrder false) h.cards ∨
        consecutiveInOrder (Hand.cardOrder true) h.cards))
    ∧ wheelHand.isStraight = true ∧ wrapHand.isStraight = false := by
  refine ⟨?_, by rfl, by rfl⟩
  intro h
  unfold Hand.isStraight
  rw [Bool.or_eq_true]
  exact or_congr (straightCheck_iff (nodup_cardOrder false) h.cards)
    (straightCheck_iff (nodup_cardOrder true) h.cards)

/-- C3 counterexample: a 3-element array of Cards does not have length 5,
yet the `Hand` constructor accepts it (it checks only that every element is
a `Card`, never the length). -/
theorem C3_counterexample_short_hand_accepted :
    ([JSItem.card aCard, JSItem.card aCard, JSItem.card aCard].length ≠ 5)
    ∧ Hand.make [JSItem.card aCard, JSItem.card aCard, JSItem.card aCard]
        = Except.ok ⟨[aCard, aCard, aCard]⟩ :=
  ⟨by decide, rfl⟩

/-- C3 amended: constructing a Hand succeeds iff every element of the array
is a `Card`; the array's length is not validated, so card arrays of any
length (including lengths other than 5) are accepted. -/
theorem C3_hand_make_checks_elements_not_length (items : List JSItem) :
    (∃ h, Hand.make items = Except.ok h) ↔ ∀ i ∈ items, isCardItem i = true := by
  constructor
  · rintro ⟨hh, hmk⟩
    by_cases hall : items.all isCardItem = true
    · exact List.all_eq_true.mp hall
    · unfold Hand.make at hmk
      rw [if_neg hall] at hmk
      cases hmk
  · intro hall
    refine ⟨⟨items.filterMap itemCard?⟩, ?_⟩
    unfold Hand.make
    rw [if_pos (List.all_eq_true.mpr hall)]

/-- C4: in a 5-card hand where at least two cards share a rank label, the
straight check fails under both the ace-high and ace-low orderings, so
`isStraight` is false. -/
theorem C4_isStraight_false_with_duplicate_rank (h : Hand)
    (hlen : h.cards.length = 5) (hdup : ¬ (h.cards.map Card.value).Nodup) :
    straightCheck (Hand.cardOrder true) h.cards = false
    ∧ straightCheck (Hand.cardOrder false) h.cards = false
    ∧ h.isStraight = false := by
  have hhigh := straightCheck_eq_false_of_dup (nodup_cardOrder true) hdup
  have hlow := straightCheck_eq_false_of_dup (nodup_cardOrder false) hdup
  refine ⟨hhigh, hlow, ?_⟩
  unfold Hand.isStraight
  rw [hhigh, hlow]
  rfl

/-- C4 witness: the concrete one-pair hand has five cards, a duplicated
rank, and is classified as no straight. -/
theorem C4_witness :
    pairHand.cards.length = 5 ∧ ¬ (pairHand.cards.map Card.value).Nodup
    ∧ pairHand.isStraight = false :=
  ⟨by decide, by decide,
    (C4_isStraight_false_with_duplicate_rank pairHand (by decide) (by decide)).2.2⟩

/-- C5: `isRoyalFlush` is true iff the hand is a flush and each of the five
labels 10, JACK, QUEEN, KING, ACE occurs among its card values; the result
does not depend on card order. -/
theorem C5_isRoyalFlush_characterization :
    (∀ h : Hand, h.isRoyalFlush = true ↔
      (h.isFlush = true ∧ ∀ v ∈ royalValues, v ∈ h.cards.map Card.value))
    ∧ (∀ h₁ h₂ : Hand, List.Perm h₁.cards h₂.cards →
        h₁.isRoyalFlush = h₂.isRoyalFlush) :=
  ⟨isRoyalFlush_iff, fun _ _ hp => isRoyalFlush_perm hp⟩

/-- C5 witness: the royal flush recognizes the concrete spades royal hand in
two different display orders. -/
theorem C5_witness :
    List.Perm royalHand.cards royalHandShuffled.cards
    ∧ royalHand.isRoyalFlush = royalHandShuffled.isRoyalFlush := by
  have hp : List.Perm royalHand.cards royalHandShuffled.cards := by decide
  exact ⟨hp, C5_isRoyalFlush_characterization.2 royalHand royalHandShuffled hp⟩

/-- C6: a 5-card royal flush is also a flush, a straight, and a straight
flush. -/
theorem C6_royalFlush_subset (h : Hand) (hlen : h.cards.length = 5)
    (hrf : h.isRoyalFlush = true) :
    h.isFlush = true ∧ h.isStraight = true ∧ h.isStraightFlush = true := by
  obtain ⟨hf, hall⟩ := (isRoyalFlush_iff h).mp hrf
  have hvals_len : (h.cards.map Card.value).length = 5 := by simp [hlen]
  have hnd_royal : royalValues.Nodup := by decide
  have hsubperm : royalValues.Subperm (h.cards.map Card.value) :=
    hnd_royal.subperm (fun v hv => hall v hv)
  have hperm : List.Perm royalValues (h.cards.map Card.value) :=
    hsubperm.perm_of_length_le (by rw [hvals_len]; decide)
  have hsvals_perm : List.Perm ((sortCards (Hand.cardOrder true) h.cards).map Card.value)
      royalValues :=
    ((sortCards_perm _ _).map _).trans hperm.symm
  have hmem_s : ∀ v ∈ (sortCards (Hand.cardOrder true) h.cards).map Card.value,
      v ∈ Hand.cardOrder true := by
    intro v hv
    have hvr : v ∈ royalValues := hsvals_perm.mem_iff.mp hv
    have hsub : ∀ w ∈ royalValues, w ∈ Hand.cardOrder true := by decide
    exact hsub v hvr
  have hsorted_royal : royalValues.Pairwise
      (fun v w => jsIndexOf (Hand.cardOrder true) v ≤ jsIndexOf (Hand.cardOrder true) w) := by
    decide
  have hseq : (sortCards (Hand.cardOrder true) h.cards).map Card.value = royalValues :=
    sorted_values_unique hsvals_perm (sortedValues_pairwise _ _) hsorted_royal hmem_s
  have hsc : straightCheck (Hand.cardOrder true) h.cards = true := by
    rw [straightCheck_iff (nodup_cardOrder true)]
    refine ⟨8, ?_, ?_⟩
    · rw [hlen]
      decide
    · rw [hseq, hlen]
      decide
  have hstraight : h.isStraight = true := by
    unfold Hand.isStraight
    rw [hsc]
    simp
  refine ⟨hf, hstraight, ?_⟩
  unfold Hand.isStraightFlush
  rw [hf, hstraight]
  rfl

/-- C6 witness: the concrete spades royal hand. -/
theorem C6_witness :
    royalHand.cards.length = 5 ∧ royalHand.isRoyalFlush = true
    ∧ royalHand.isStraightFlush = true :=
  ⟨by decide, by decide, (C6_royalFlush_subset royalHand (by decide) (by decide)).2.2⟩

/-- C7: a 5-card full house is never reported as two pair: its count
multiset is {3,2}, which contains exactly one count equal to 2 while
`isTwoPair` demands two. -/
theorem C7_fullHouse_not_twoPair (h : Hand) (hlen : h.cards.length = 5)
    (hfh : h.isFullHouse = true) : h.isTwoPair = false := by
  unfold Hand.isFullHouse at hfh
  rw [Bool.and_eq_true] at hfh
  obtain ⟨h3, h2⟩ := hfh
  have h3' : 3 ∈ h.countValues := by
    unfold Hand.isOfAKind at h3
    simp only [List.any_eq_true, beq_iff_eq] at h3
    obtain ⟨c, hc, rfl⟩ := h3
    exact hc
  have h2' : 2 ∈ h.countValues := by
    unfold Hand.isOfAKind at h2
    simp only [List.any_eq_true, beq_iff_eq] at h2
    obtain ⟨c, hc, rfl⟩ := h2
    exact hc
  have hsum : h.countValues.sum = 5 := by rw [sum_countValues, hlen]
  have hperm := counts_perm_of_three_two h3' h2' hsum (pos_countValues h)
  have hcp : (h.countValues.filter (fun value => value == 2)).length = 1 := by
    rw [← List.countP_eq_length_filter, hperm.countP_eq]
    decide
  unfold Hand.isTwoPair
  rw [hcp]
  rfl

/-- C7 witness: the concrete full-house hand. -/
theorem C7_witness :
    fullHouseHand.cards.length = 5 ∧ fullHouseHand.isFullHouse = true
    ∧ fullHouseHand.isTwoPair = false :=
  ⟨by decide, by decide, C7_fullHouse_not_twoPair fullHouseHand (by decide) (by decide)⟩

/-- C8: the classifier is insensitive to card order — permuting the cards
never changes the label, and in particular classifying after the in-place
sort (under either ace interpretation) gives the same label as before. -/
theorem C8_classifier_order_insensitive :
    (∀ h₁ h₂ : Hand, List.Perm h₁.cards h₂.cards → h₁.highestHand = h₂.highestHand)
    ∧ (∀ (h : Hand) (ace : Bool), (h.sortInPlace ace).highestHand = h.highestHand) := by
  refine ⟨fun h₁ h₂ hp => highestHand_perm hp, ?_⟩
  intro h ace
  exact highestHand_perm (sortCards_perm (Hand.cardOrder ace) h.cards)

/-- C8 witness: two display orders of the same royal flush get the same
label. -/
theorem C8_witness :
    List.Perm royalHand.cards royalHandShuffled.cards
    ∧ royalHand.highestHand = royalHandShuffled.highestHand := by
  have hp : List.Perm royalHand.cards royalHandShuffled.cards := by decide
  exact ⟨hp, C8_classifier_order_insensitive.1 royalHand royalHandShuffled hp⟩

/-- C9: the `Card` constructor fails with a validation error whenever some
argument is empty or not a string, and when it succeeds all four stored
fields are non-empty strings. -/
theorem C9_card_constructor_validation :
    (∀ code suit value image : JSVal,
      (badField code = true ∨ badField suit = true ∨ badField value = true
        ∨ badField image = true) →
      ∃ e, Card.make code suit value image = Except.error e)
    ∧ (∀ (code suit value image : JSVal) (c : Card),
      Card.make code suit value image = Except.ok c →
      c.code ≠ "" ∧ c.suit ≠ "" ∧ c.value ≠ "" ∧ c.image ≠ "") := by
  constructor
  · intro code suit value image hbad
    cases code with
    | nonstr => exact ⟨"Invalid code", rfl⟩
    | str cs =>
      simp only [Card.make]
      by_cases hc : cs = "" ∨ cs.length ≠ 2
      · rw [if_pos hc]
        exact ⟨_, rfl⟩
      · rw [if_neg hc]
        cases suit with
        | nonstr => exact ⟨_, rfl⟩
        | str ss =>
          simp only [makeSuit]
          by_cases hs : ss = ""
          · rw [if_pos hs]
            exact ⟨_, rfl⟩
          · rw [if_neg hs]
            cases value with
            | nonstr => exact ⟨_, rfl⟩
            | str vs =>
              simp only [makeValue]
              by_cases hv : vs = ""
              · rw [if_pos hv]
                exact ⟨_, rfl⟩
              · rw [if_neg hv]
                cases image with
                | nonstr => exact ⟨_, rfl⟩
                | str is =>
                  simp only [makeImage]
                  by_cases hi : is = ""
                  · rw [if_pos hi]
                    exact ⟨_, rfl⟩
                  · exfalso
                    push_neg at hc
                    simp only [badField, beq_iff_eq] at hbad
                    rcases hbad with hb | hb | hb | hb
                    · exact hc.1 hb
                    · exact hs hb
                    · exact hv hb
                    · exact hi hb
  · intro code suit value image c hok
    cases code with
    | nonstr => cases hok
    | str cs =>
      simp only [Card.make] at hok
      by_cases hc : cs = "" ∨ cs.length ≠ 2
      · rw [if_pos hc] at hok
        cases hok
      · rw [if_neg hc] at hok
        cases suit with
        | nonstr => cases hok
        | str ss =>
          simp only [makeSuit] at hok
          by_cases hs : ss = ""
          · rw [if_pos hs] at hok
            cases hok
          · rw [if_neg hs] at hok
            cases value with
            | nonstr => cases hok
            | str vs =>
              simp only [makeValue] at hok
              by_cases hv : vs = ""
              · rw [if_pos hv] at hok
                cases hok
              · rw [if_neg hv] at hok
                cases image with
                | nonstr => cases hok
                | str is =>
                  simp only [makeImage] at hok
                  by_cases hi : is = ""
                  · rw [if_pos hi] at hok
                    cases hok
                  · rw [if_neg hi] at hok
                    cases hok
                    push_neg at hc
                    exact ⟨hc.1, hs, hv, hi⟩

/-- C9 witness: an empty `code` string is rejected, and the concrete valid
card has four non-empty fields. -/
theorem C9_witness :
    (∃ e, Card.make (JSVal.str "") (JSVal.str "HEARTS") (JSVal.str "2") (JSVal.str "null")
      = Except.error e)
    ∧ (aCard.code ≠ "" ∧ aCard.suit ≠ "" ∧ aCard.value ≠ "" ∧ aCard.image ≠ "") := by
  refine ⟨C9_card_constructor_validation.1 _ _ _ _ (Or.inl (by decide)), ?_⟩
  exact C9_card_constructor_validation.2 (JSVal.str "2H") (JSVal.str "HEARTS")
    (JSVal.str "2") (JSVal.str "null") aCard (by rfl)

/-- C10: the `Hand` constructor copies the caller's array (`[...cards]`), so
overwriting the caller's array afterwards — which covers adding, removing or
reordering elements — leaves the hand's stored cards, and therefore its
classification, unchanged; the hand's array is a distinct reference. -/
theorem C10_hand_constructor_copies (heap : List (List Card)) (callerRef : Nat)
    (hlt : callerRef < heap.length) (v : List Card) :
    readArr (writeArr (Hand.constructRef heap callerRef).2 callerRef v)
        (Hand.constructRef heap callerRef).1 = readArr heap callerRef
    ∧ highestHandAt (writeArr (Hand.constructRef heap callerRef).2 callerRef v)
        (Hand.constructRef heap callerRef).1
      = Hand.highestHand ⟨readArr heap callerRef⟩
    ∧ (Hand.constructRef heap callerRef).1 ≠ callerRef := by
  have hread : readArr (writeArr (heap ++ [readArr heap callerRef]) callerRef v)
      heap.length = readArr heap callerRef := by
    unfold readArr writeArr
    rw [List.getD_eq_getElem?_getD, List.getElem?_set_ne (by omega),
      List.getElem?_concat_length]
    rfl
  exact ⟨hread, congrArg (fun l => Hand.highestHand ⟨l⟩) hread, by
    show heap.length ≠ callerRef
    omega⟩

/-- C10 witness: a one-array heap; after constructing the hand and clearing
the caller's array, the hand still reads its copied card. -/
theorem C10_witness :
    (0 < [[aCard]].length)
    ∧ readArr (writeArr (Hand.constructRef [[aCard]] 0).2 0 [])
        (Hand.constructRef [[aCard]] 0).1 = readArr [[aCard]] 0 :=
  ⟨by decide, (C10_hand_constructor_copies [[aCard]] 0 (by decide) []).1⟩
